import Mathlib

/-!
Verification of the Polymarket activity-ingestion daemon (`app/main.py`).

The development shallowly embeds the poll → deduplicate → order → notify
cycle of the source program:

* JSON values arriving from the feed are modelled by `Prim` (null, integer,
  string) and a raw record by `RawItem`, an association list in insertion
  order, mirroring a Python dict produced by `json.loads`.  A JSON `null`
  is the Python value `None`; `dictGet` therefore collapses a stored `null`
  and a missing key to `none`, exactly as `dict.get` does.
* `dumps` is the serialization performed by `json.dumps(item,
  ensure_ascii=False)` on such a record (separators `", "` and `": "`,
  `"` and `\` escaped).  Escaping of control characters (below U+0020) is
  not modelled; theorems about `dumps` carry a no-control-character
  hypothesis restricting them to the modelled domain.
* `normalize_item` and `format_message` are direct translations of the
  functions of the same names.  The string fields are modelled as
  arbitrary `Prim`s; `format_message` assumes a present `title` is a
  string (the schema's `Text` column), as the source would raise
  otherwise.
* The store is the SQLite table keyed on `transactionHash`:
  `recordIfNew` is the `INSERT ... ON CONFLICT DO NOTHING` statement, and
  `recordLoop` the per-item loop inside `with engine.begin()`.  An insert
  that raises (oracle `storeOk`) aborts the loop and rolls back the whole
  transaction, as the context manager does.
* `runCycle` is one iteration of the `while True` body, with the fetch
  outcome, the per-row notifier outcome and the error-report outcome
  supplied as inputs; `runCycles` iterates it.  Python's stable
  `list.sort` with key `x.get("timestamp") or 0` is modelled by
  `List.insertionSort` on `tsKey` (insertion sort is a stable sort, and a
  stable sort of a list is unique).  Timestamps are integers per the
  schema; a missing or null timestamp yields key `0` via Python's
  falsy-`or`.
-/

namespace PolyBot

/-- A JSON value as delivered by the feed for one field: the activity
records are flat objects whose values are null, integers or strings. -/
inductive Prim where
  | null : Prim
  | pint : Int → Prim
  | pstr : String → Prim
deriving DecidableEq

/-- A raw fetched record: a Python dict in insertion order. -/
abbrev RawItem := List (String × Prim)

/-- `item.get(k)`: first binding of `k`, with a JSON `null` value collapsed
to Python `None` (json.loads maps `null` to `None`). -/
def dictGet (item : RawItem) (k : String) : Option Prim :=
  match item.lookup k with
  | some Prim.null => none
  | some v => some v
  | none => none

/-- Python truthiness of a field value: `None`, `0` and `""` are falsy. -/
def truthy : Option Prim → Bool
  | none => false
  | some (Prim.pint n) => n != 0
  | some (Prim.pstr s) => s != ""
  | some Prim.null => false

/-- The character for a single decimal digit. -/
def natDigitChar (d : Nat) : Char := Char.ofNat (48 + d)

/-- Decimal digit values of `n`, least significant first, with enough fuel. -/
def natDigitsFuel : Nat → Nat → List Nat
  | 0, _ => []
  | fuel + 1, n => if n = 0 then [] else n % 10 :: natDigitsFuel fuel (n / 10)

/-- Decimal digits of a positive number, most significant first. -/
def natChars (n : Nat) : List Char := ((natDigitsFuel n n).map natDigitChar).reverse

/-- Python's decimal rendering of a natural number. -/
def natLit (n : Nat) : List Char := if n = 0 then [natDigitChar 0] else natChars n

/-- Python's decimal rendering of an integer. -/
def intLit (n : Int) : List Char :=
  if n < 0 then Char.ofNat 45 :: natLit n.natAbs else natLit n.toNat

/-- JSON string escaping as performed by `json.dumps(..., ensure_ascii=False)`
on strings without control characters: `"` and `\` get a backslash. -/
def escChars : List Char → List Char
  | [] => []
  | c :: cs =>
    if c = '"' then '\\' :: '"' :: escChars cs
    else if c = '\\' then '\\' :: '\\' :: escChars cs
    else c :: escChars cs

/-- A JSON string literal. -/
def strLit (s : String) : List Char := '"' :: (escChars s.data ++ ['"'])

/-- Serialization of one JSON value. -/
def primLit : Prim → List Char
  | Prim.null => ['n', 'u', 'l', 'l']
  | Prim.pint n => intLit n
  | Prim.pstr s => strLit s

/-- One `"key": value` entry (json.dumps key separator is `": "`). -/
def entryLit (e : String × Prim) : List Char :=
  strLit e.1 ++ ':' :: ' ' :: primLit e.2

/-- The entries of an object joined by `", "` (the item separator). -/
def entriesLit : RawItem → List Char
  | [] => []
  | [e] => entryLit e
  | e :: rest => entryLit e ++ ',' :: ' ' :: entriesLit rest

/-- `json.dumps(item, ensure_ascii=False)` for a flat record. -/
def dumps (item : RawItem) : String :=
  String.mk (Char.ofNat 123 :: (entriesLit item ++ [Char.ofNat 125]))

/-- The canonical row built by `normalize_item`: the sixteen named columns
plus the verbatim provenance payload. -/
structure Row where
  transactionHash : Option Prim
  timestamp : Option Prim
  proxyWallet : Option Prim
  conditionId : Option Prim
  type : Option Prim
  side : Option Prim
  asset : Option Prim
  outcome : Option Prim
  outcomeIndex : Option Prim
  price : Option Prim
  size : Option Prim
  usdcSize : Option Prim
  title : Option Prim
  slug : Option Prim
  eventSlug : Option Prim
  icon : Option Prim
  raw_json : String
deriving DecidableEq

/-- `normalize_item`: project the known fields with `item.get` and keep the
original payload serialized verbatim in `raw_json`. -/
def normalize_item (item : RawItem) : Row where
  transactionHash := dictGet item "transactionHash"
  timestamp := dictGet item "timestamp"
  proxyWallet := dictGet item "proxyWallet"
  conditionId := dictGet item "conditionId"
  type := dictGet item "type"
  side := dictGet item "side"
  asset := dictGet item "asset"
  outcome := dictGet item "outcome"
  outcomeIndex := dictGet item "outcomeIndex"
  price := dictGet item "price"
  size := dictGet item "size"
  usdcSize := dictGet item "usdcSize"
  title := dictGet item "title"
  slug := dictGet item "slug"
  eventSlug := dictGet item "eventSlug"
  icon := dictGet item "icon"
  raw_json := dumps item

/-- Rendering of a field inside an f-string: `None` for an absent value,
decimal for an integer, the string itself otherwise (Python `str`). -/
def pyFStr : Option Prim → String
  | none => "None"
  | some Prim.null => "None"
  | some (Prim.pint n) => String.mk (intLit n)
  | some (Prim.pstr s) => s

/-- Python whitespace stripped by `str.strip`. -/
def pySpace (c : Char) : Bool :=
  c = ' ' || c = '\t' || c = '\n' || c = '\r' || c = Char.ofNat 11 || c = Char.ofNat 12

/-- `str.strip()`: drop whitespace at both ends. -/
def pyStrip (s : String) : String :=
  String.mk ((s.data.dropWhile pySpace).reverse.dropWhile pySpace).reverse

/-- `(r.get("title") or "").strip()`; a present title is assumed to be a
string (the schema's `Text` column). -/
def titleStr (r : Row) : String :=
  match r.title with
  | some (Prim.pstr s) => pyStrip s
  | _ => ""

/-- `format_message`: the human-readable Telegram text for one row. -/
def format_message (r : Row) : String :=
  let t := titleStr r
  let l1 := ["🆕 Polymarket activity"]
  let l2 := if t != "" then l1 ++ ["📝 " ++ t] else l1
  let l3 := l2 ++ ["🔁 " ++ pyFStr r.type ++ " / " ++ pyFStr r.side]
  let l4 := if r.size.isSome || r.usdcSize.isSome then
      l3 ++ ["📦 size=" ++ pyFStr r.size ++ " | usdc=" ++ pyFStr r.usdcSize]
    else l3
  let l5 := if r.price.isSome then l4 ++ ["💲 price=" ++ pyFStr r.price] else l4
  String.intercalate "\n" (l5 ++ ["🧾 tx=" ++ pyFStr r.transactionHash])

/-- The sort key `x.get("timestamp") or 0`: timestamps are integers per
the schema, and a missing or null timestamp is falsy, yielding `0`. -/
def tsKey (r : Row) : Int :=
  match r.timestamp with
  | some (Prim.pint n) => n
  | _ => 0

instance relRowDec : DecidableRel (fun a b : Row => tsKey a ≤ tsKey b) :=
  fun a b => Int.decLe (tsKey a) (tsKey b)

instance relRowTotal : IsTotal Row (fun a b : Row => tsKey a ≤ tsKey b) :=
  ⟨fun a b => Int.le_total (tsKey a) (tsKey b)⟩

instance relRowTrans : IsTrans Row (fun a b : Row => tsKey a ≤ tsKey b) :=
  ⟨fun _ _ _ => Int.le_trans⟩

/-- `new_rows.sort(key=lambda x: x.get("timestamp") or 0)`: Python's sort
is stable; a stable sort of a list is unique, so it is insertion sort. -/
def orderRows (rows : List Row) : List Row :=
  List.insertionSort (fun a b : Row => tsKey a ≤ tsKey b) rows

/-- The persisted table, in insertion order. -/
abbrev Store := List Row

/-- Does some stored row carry this `transactionHash` value? -/
def hasTx (s : Store) (v : Option Prim) : Bool :=
  s.any fun r => decide (r.transactionHash = v)

/-- Number of stored rows carrying this `transactionHash` value. -/
def cntTx (l : List Row) (v : Option Prim) : Nat :=
  l.countP fun r => decide (r.transactionHash = v)

/-- `INSERT ... ON CONFLICT (transactionHash) DO NOTHING`: returns the new
store and whether `rowcount == 1`. -/
def recordIfNew (s : Store) (row : Row) : Store × Bool :=
  if hasTx s row.transactionHash then (s, false) else (s ++ [row], true)

/-- One fetch failure: a network/status error or a non-list response. -/
inductive FetchError where
  | network : FetchError
  | shape : FetchError
deriving DecidableEq

/-- The externally supplied outcomes of one cycle: the fetch result, an
oracle for whether an insert statement raises, an oracle for whether the
Telegram send of a row succeeds, and whether the error-report send
succeeds. -/
structure CycleInput where
  fetch : Except FetchError (List RawItem)
  storeOk : Row → Bool
  notifyOk : Row → Bool
  errNotifyOk : Bool

/-- The record loop inside `with engine.begin()`: normalize, skip rows with
a falsy `transactionHash`, insert-if-new, collect rows with
`rowcount == 1`.  A raising insert aborts the loop (the transaction is
then rolled back by the caller). -/
def recordLoop (ok : Row → Bool) (s : Store) (acc : List Row) :
    List RawItem → Except Unit (Store × List Row)
  | [] => Except.ok (s, acc)
  | item :: rest =>
    let row := normalize_item item
    if truthy row.transactionHash then
      if ok row then
        match recordIfNew s row with
        | (s', true) => recordLoop ok s' (acc ++ [row]) rest
        | (s', false) => recordLoop ok s' acc rest
      else Except.error ()
    else recordLoop ok s acc rest

/-- The delivery loop: send each row in order; the first failing send
raises out of the loop.  Returns the rows whose send was attempted, the
rows whose send succeeded, and whether an exception was raised. -/
def deliver (ok : Row → Bool) : List Row → List Row × List Row × Bool
  | [] => ([], [], false)
  | r :: rest =>
    if ok r then
      let (att, sent, raised) := deliver ok rest
      (r :: att, r :: sent, raised)
    else ([r], [], true)

/-- Observable outcome of one iteration of the `while True` body. -/
structure CycleOutcome where
  store : Store
  newRows : List Row
  ordered : List Row
  attempted : List Row
  sent : List Row
  errorReports : Nat
  errorReportDelivered : Bool
  slept : Bool
deriving DecidableEq

/-- One iteration of the `while True` body of `run`: fetch, record inside
one transaction, sort ascending by timestamp, notify in order; any raised
error is caught by the top-level handler, which attempts one error report
(whose own failure is swallowed) and falls through to the sleep. -/
def runCycle (s : Store) (inp : CycleInput) : CycleOutcome :=
  match inp.fetch with
  | Except.error _ => ⟨s, [], [], [], [], 1, inp.errNotifyOk, true⟩
  | Except.ok items =>
    match recordLoop inp.storeOk s [] items with
    | Except.error _ => ⟨s, [], [], [], [], 1, inp.errNotifyOk, true⟩
    | Except.ok (s', newRows) =>
      let ordered := orderRows newRows
      let (att, sent, raised) := deliver inp.notifyOk ordered
      if raised then ⟨s', newRows, ordered, att, sent, 1, inp.errNotifyOk, true⟩
      else ⟨s', newRows, ordered, att, sent, 0, false, true⟩

/-- The loop itself: one outcome per cycle input, threading the store. -/
def runCycles (s : Store) : List CycleInput → Store × List CycleOutcome
  | [] => (s, [])
  | inp :: rest =>
    let o := runCycle s inp
    let (sf, outs) := runCycles o.store rest
    (sf, o :: outs)

/-- Is this character a decimal digit? -/
def isDigitChar (c : Char) : Bool := 48 ≤ c.toNat && c.toNat ≤ 57

/-- Take the leading digits of the input, as values, returning the rest. -/
def takeDigits : List Char → List Nat × List Char
  | [] => ([], [])
  | c :: cs =>
    if isDigitChar c then
      let (ds, r) := takeDigits cs
      ((c.toNat - 48) :: ds, r)
    else ([], c :: cs)

/-- Parse a nonempty run of digits as a natural number. -/
def parseNat (cs : List Char) : Option (Nat × List Char) :=
  match takeDigits cs with
  | ([], _) => none
  | (ds, r) => some (Nat.ofDigits 10 ds.reverse, r)

/-- Parse a JSON integer (an optional minus sign and digits). -/
def parseInt (cs : List Char) : Option (Int × List Char) :=
  match cs with
  | [] => none
  | c :: rest =>
    if c = Char.ofNat 45 then
      (parseNat rest).map fun p => (-(p.1 : Int), p.2)
    else (parseNat (c :: rest)).map fun p => ((p.1 : Int), p.2)

/-- Scan the body of a string literal up to the closing quote, undoing the
escapes of `escChars`. -/
def scanStr : List Char → Option (List Char × List Char)
  | [] => none
  | c :: cs =>
    if c = '"' then some ([], cs)
    else if c = '\\' then
      match cs with
      | [] => none
      | d :: cs' =>
        if d = '"' || d = '\\' then (scanStr cs').map fun p => (d :: p.1, p.2)
        else none
    else (scanStr cs).map fun p => (c :: p.1, p.2)

/-- Parse a JSON string literal. -/
def parseStrLit : List Char → Option (String × List Char)
  | [] => none
  | c :: cs =>
    if c = '"' then (scanStr cs).map fun p => (String.mk p.1, p.2)
    else none

/-- Parse one JSON value (null, string or integer). -/
def parsePrim (cs : List Char) : Option (Prim × List Char) :=
  match cs with
  | [] => none
  | c :: rest =>
    if c = 'n' then
      match rest with
      | 'u' :: 'l' :: 'l' :: r => some (Prim.null, r)
      | _ => none
    else if c = '"' then (scanStr rest).map fun p => (Prim.pstr (String.mk p.1), p.2)
    else (parseInt (c :: rest)).map fun p => (Prim.pint p.1, p.2)

/-- Expect the two given characters at the head of the input. -/
def expect2 (a b : Char) : List Char → Option (List Char)
  | c1 :: c2 :: r => if c1 = a then if c2 = b then some r else none else none
  | _ => none

/-- Parse the nonempty entry list of an object body (fuelled by an upper
bound on the number of entries). -/
def parseEntries : Nat → List Char → Option (RawItem × List Char)
  | 0, _ => none
  | fuel + 1, cs =>
    match parseStrLit cs with
    | none => none
    | some (k, r1) =>
      match expect2 ':' ' ' r1 with
      | none => none
      | some r2 =>
        match parsePrim r2 with
        | none => none
        | some (v, r3) =>
          match expect2 ',' ' ' r3 with
          | some r4 => (parseEntries fuel r4).map fun p => ((k, v) :: p.1, p.2)
          | none => some ([(k, v)], r3)

/-- `json.loads` for a flat record: the inverse reading of `dumps`. -/
def parseItem (s : String) : Option RawItem :=
  match s.data with
  | [] => none
  | c :: cs =>
    if c = Char.ofNat 123 then
      if cs = [Char.ofNat 125] then some []
      else
        match parseEntries cs.length cs with
        | some (item, r) => if r = [Char.ofNat 125] then some item else none
        | none => none
    else none

/-- No character below U+0020: the domain on which the modelled string
escaping agrees with `json.dumps`. -/
def noCtl (s : String) : Prop := ∀ c ∈ s.data, 32 ≤ c.toNat

/-- A string value is free of control characters; other values carry no
constraint. -/
def primNoCtl : Prim → Prop
  | Prim.pstr s => noCtl s
  | _ => True

/-- A raw record is well formed for provenance purposes when every key and
every string value is free of control characters. -/
def wfItem (item : RawItem) : Prop :=
  ∀ e ∈ item, noCtl e.1 ∧ primNoCtl e.2

instance : DecidablePred noCtl := fun s =>
  inferInstanceAs (Decidable (∀ c ∈ s.data, 32 ≤ c.toNat))

instance decPrimNoCtl : DecidablePred primNoCtl := fun v => by
  unfold primNoCtl
  cases v <;> infer_instance

instance : DecidablePred wfItem := fun item =>
  inferInstanceAs (Decidable (∀ e ∈ item, noCtl e.1 ∧ primNoCtl e.2))

/-! ### Supporting lemmas about the store -/

theorem hasTx_iff (s : Store) (v : Option Prim) :
    hasTx s v = true ↔ ∃ r ∈ s, r.transactionHash = v := by
  simp [hasTx]

theorem cntTx_eq_zero_iff (s : Store) (v : Option Prim) :
    cntTx s v = 0 ↔ hasTx s v = false := by
  simp [cntTx, hasTx, List.countP_eq_zero, List.any_eq_true]

theorem cntTx_append (s t : List Row) (v : Option Prim) :
    cntTx (s ++ t) v = cntTx s v + cntTx t v := by
  simp [cntTx, List.countP_append]

/-- Splitting the record loop at an append point. -/
theorem recordLoop_append (ok : Row → Bool) (xs ys : List RawItem) :
    ∀ s acc, recordLoop ok s acc (xs ++ ys) =
      (recordLoop ok s acc xs).bind fun p => recordLoop ok p.1 p.2 ys := by
  induction xs with
  | nil => intro s acc; simp [recordLoop, Except.bind]
  | cons x xs ih =>
    intro s acc
    simp only [List.cons_append, recordLoop]
    by_cases h1 : truthy (normalize_item x).transactionHash
    · simp only [h1, if_true]
      by_cases h2 : ok (normalize_item x)
      · simp only [h2, if_true]
        rcases h3 : recordIfNew s (normalize_item x) with ⟨s1, b⟩
        cases b <;> simp [ih]
      · simp [h2, Except.bind]
    · simp [h1, ih]

/-- A successful record loop extends the store by exactly the rows it
collected beyond its accumulator. -/
theorem recordLoop_store_eq (ok : Row → Bool) :
    ∀ (items : List RawItem) (s : Store) (acc s' : List Row) (nr : List Row),
      recordLoop ok s acc items = Except.ok (s', nr) →
      ∃ d, s' = s ++ d ∧ nr = acc ++ d := by
  intro items
  induction items with
  | nil =>
    intro s acc s' nr h
    simp [recordLoop] at h
    exact ⟨[], by simp [h.1, h.2]⟩
  | cons x xs ih =>
    intro s acc s' nr h
    simp only [recordLoop] at h
    by_cases h1 : truthy (normalize_item x).transactionHash
    · simp only [h1, if_true] at h
      by_cases h2 : ok (normalize_item x)
      · simp only [h2, if_true] at h
        rcases h3 : recordIfNew s (normalize_item x) with ⟨s1, b⟩
        rw [h3] at h
        have hs1 : s1 = if hasTx s (normalize_item x).transactionHash then s
            else s ++ [normalize_item x] := by
          by_cases h4 : hasTx s (normalize_item x).transactionHash <;>
            simp_all [recordIfNew]
        cases b with
        | true =>
          obtain ⟨d, hd1, hd2⟩ := ih s1 (acc ++ [normalize_item x]) s' nr h
          by_cases h4 : hasTx s (normalize_item x).transactionHash
          · exfalso; simp [recordIfNew, h4] at h3
          · simp only [h4, if_false] at hs1
            exact ⟨normalize_item x :: d, by simp [hd1, hs1], by simp [hd2]⟩
        | false =>
          obtain ⟨d, hd1, hd2⟩ := ih s1 acc s' nr h
          by_cases h4 : hasTx s (normalize_item x).transactionHash
          · simp only [h4, if_true] at hs1
            exact ⟨d, by simp [hd1, hs1], hd2⟩
          · exfalso; simp [recordIfNew, h4] at h3
      · simp [h2] at h
    · simp only [h1, if_false] at h
      exact ih s acc s' nr h

/-! ### C2: idempotent recording -/

/-- Claim C2 (confirmed).  For an event with a usable `txHash` that is not
yet stored, the on-conflict-do-nothing insert reports `inserted = true`
and stores exactly one record for that identity; a second identical call
reports `inserted = false` and leaves the store untouched. -/
theorem recordIfNew_idempotent (s : Store) (row : Row)
    (_htx : truthy row.transactionHash = true)
    (hfresh : hasTx s row.transactionHash = false) :
    (recordIfNew s row).2 = true ∧
    cntTx (recordIfNew s row).1 row.transactionHash = 1 ∧
    recordIfNew (recordIfNew s row).1 row = ((recordIfNew s row).1, false) := by
  have h0 : cntTx s row.transactionHash = 0 := (cntTx_eq_zero_iff s _).mpr hfresh
  have hstep : recordIfNew s row = (s ++ [row], true) := by
    simp [recordIfNew, hfresh]
  refine ⟨by simp [hstep], ?_, ?_⟩
  · rw [hstep]
    show cntTx (s ++ [row]) _ = 1
    rw [cntTx_append, h0]
    simp [cntTx]
  · have hmem : hasTx (s ++ [row]) row.transactionHash = true :=
      (hasTx_iff _ _).mpr ⟨row, by simp⟩
    rw [hstep]
    simp [recordIfNew, hmem]

/-- Witness for C2 at a concrete fresh row. -/
theorem recordIfNew_idempotent_witness :
    ((recordIfNew [] (normalize_item [("transactionHash", Prim.pstr "0xabc")])).2 = true ∧
      cntTx (recordIfNew [] (normalize_item [("transactionHash", Prim.pstr "0xabc")])).1
        (normalize_item [("transactionHash", Prim.pstr "0xabc")]).transactionHash = 1 ∧
      recordIfNew (recordIfNew [] (normalize_item [("transactionHash", Prim.pstr "0xabc")])).1
          (normalize_item [("transactionHash", Prim.pstr "0xabc")]) =
        ((recordIfNew [] (normalize_item [("transactionHash", Prim.pstr "0xabc")])).1, false)) := by
  have h := recordIfNew_idempotent []
    (normalize_item [("transactionHash", Prim.pstr "0xabc")]) (by decide) (by decide)
  simpa using h

/-! ### C4 and C10: records with a falsy identity are skipped -/

/-- A record whose normalized `transactionHash` is falsy contributes
nothing to a cycle: the cycle behaves as if the record were absent. -/
theorem runCycle_skipped (s : Store) (inp : CycleInput) (pre post : List RawItem)
    (item : RawItem) (hfetch : inp.fetch = Except.ok (pre ++ item :: post))
    (hskip : truthy (normalize_item item).transactionHash = false) :
    runCycle s inp = runCycle s ⟨Except.ok (pre ++ post), inp.storeOk, inp.notifyOk,
      inp.errNotifyOk⟩ := by
  have key : recordLoop inp.storeOk s [] (pre ++ item :: post) =
      recordLoop inp.storeOk s [] (pre ++ post) := by
    rw [recordLoop_append, recordLoop_append]
    congr 1
    funext p
    simp [recordLoop, hskip]
  simp only [runCycle, hfetch, key]

/-- Concrete fixtures used by several witnesses and counterexamples. -/
def itemA1 : RawItem := [("transactionHash", Prim.pstr "a"), ("timestamp", Prim.pint 1)]

def itemB1 : RawItem := [("transactionHash", Prim.pstr "b"), ("timestamp", Prim.pint 2)]

def itemNoTx : RawItem := [("timestamp", Prim.pint 3)]

def itemEmptyTx : RawItem := [("transactionHash", Prim.pstr ""), ("timestamp", Prim.pint 4)]

def okAll : Row → Bool := fun _ => true

/-- Claim C4 (confirmed).  A fetched record with no `txHash` is silently
skipped: the cycle's outcome (store writes, notifications, error
handling, reaching the sleep) is identical to the outcome on the batch
without that record, so the rest of the batch is processed unaffected. -/
theorem missing_identity_skipped (s : Store) (inp : CycleInput) (pre post : List RawItem)
    (item : RawItem) (hfetch : inp.fetch = Except.ok (pre ++ item :: post))
    (htx : (normalize_item item).transactionHash = none) :
    runCycle s inp = runCycle s ⟨Except.ok (pre ++ post), inp.storeOk, inp.notifyOk,
      inp.errNotifyOk⟩ :=
  runCycle_skipped s inp pre post item hfetch (by rw [htx]; rfl)

/-- Witness for C4: a no-identity record in the middle of a batch. -/
theorem missing_identity_skipped_witness :
    runCycle [] ⟨Except.ok ([itemB1] ++ itemNoTx :: [itemA1]), okAll, okAll, true⟩ =
      runCycle [] ⟨Except.ok ([itemB1] ++ [itemA1]), okAll, okAll, true⟩ :=
  missing_identity_skipped [] ⟨Except.ok ([itemB1] ++ itemNoTx :: [itemA1]), okAll, okAll, true⟩
    [itemB1] [itemA1] itemNoTx rfl (by decide)

/-- Claim C10 (confirmed).  A record whose `transactionHash` key is present
but falsy after normalization (the empty string) is treated exactly like
one with no identity: the cycle's outcome is identical to the outcome on
the batch without it — zero store writes and zero notifications — because
the skip test is Python truthiness of the normalized value. -/
theorem empty_tx_skipped (s : Store) (inp : CycleInput) (pre post : List RawItem)
    (item : RawItem) (hfetch : inp.fetch = Except.ok (pre ++ item :: post))
    (htx : (normalize_item item).transactionHash = some (Prim.pstr "")) :
    runCycle s inp = runCycle s ⟨Except.ok (pre ++ post), inp.storeOk, inp.notifyOk,
      inp.errNotifyOk⟩ :=
  runCycle_skipped s inp pre post item hfetch (by rw [htx]; rfl)

/-- Witness for C10: a present-but-empty `transactionHash`. -/
theorem empty_tx_skipped_witness :
    runCycle [] ⟨Except.ok ([itemB1] ++ itemEmptyTx :: [itemA1]), okAll, okAll, true⟩ =
      runCycle [] ⟨Except.ok ([itemB1] ++ [itemA1]), okAll, okAll, true⟩ :=
  empty_tx_skipped [] ⟨Except.ok ([itemB1] ++ itemEmptyTx :: [itemA1]), okAll, okAll, true⟩
    [itemB1] [itemA1] itemEmptyTx rfl (by decide)

/-! ### C5: failures are contained at the cycle boundary -/

/-- Unfolding one iteration of the loop. -/
theorem runCycles_cons (s : Store) (inp : CycleInput) (rest : List CycleInput) :
    runCycles s (inp :: rest) = ((runCycles (runCycle s inp).store rest).1,
      runCycle s inp :: (runCycles (runCycle s inp).store rest).2) := by
  rcases h : runCycles (runCycle s inp).store rest with ⟨sf, outs⟩
  simp [runCycles, h]

/-- Every single cycle reaches the sleep and attempts at most one error
report, whatever the fetch, store and notifier outcomes. -/
theorem runCycle_contained (s : Store) (inp : CycleInput) :
    (runCycle s inp).slept = true ∧ (runCycle s inp).errorReports ≤ 1 := by
  rcases hf : inp.fetch with e | items
  · simp [runCycle, hf]
  · rcases hrec : recordLoop inp.storeOk s [] items with e | ⟨s', newRows⟩
    · simp [runCycle, hf, hrec]
    · rcases hdel : deliver inp.notifyOk (orderRows newRows) with ⟨att, sent, raised⟩
      cases raised <;> simp [runCycle, hf, hrec, hdel]

/-- Flipping the error-report outcome changes nothing observable except
the delivery flag of the report itself: its failure is swallowed. -/
theorem runCycle_errReport_swallowed (s : Store) (inp : CycleInput) (b : Bool) :
    (runCycle s ⟨inp.fetch, inp.storeOk, inp.notifyOk, b⟩).store = (runCycle s inp).store ∧
    (runCycle s ⟨inp.fetch, inp.storeOk, inp.notifyOk, b⟩).newRows = (runCycle s inp).newRows ∧
    (runCycle s ⟨inp.fetch, inp.storeOk, inp.notifyOk, b⟩).attempted =
      (runCycle s inp).attempted ∧
    (runCycle s ⟨inp.fetch, inp.storeOk, inp.notifyOk, b⟩).sent = (runCycle s inp).sent ∧
    (runCycle s ⟨inp.fetch, inp.storeOk, inp.notifyOk, b⟩).errorReports =
      (runCycle s inp).errorReports ∧
    (runCycle s ⟨inp.fetch, inp.storeOk, inp.notifyOk, b⟩).slept = (runCycle s inp).slept := by
  rcases hf : inp.fetch with e | items
  · simp [runCycle, hf]
  · rcases hrec : recordLoop inp.storeOk s [] items with e | ⟨s', newRows⟩
    · simp [runCycle, hf, hrec]
    · rcases hdel : deliver inp.notifyOk (orderRows newRows) with ⟨att, sent, raised⟩
      cases raised <;> simp [runCycle, hf, hrec, hdel]

/-- Claim C5 (confirmed).  Every modelled error source in a cycle — fetch
failure or shape mismatch (`FetchError`), a raising store write (which
rolls the transaction back), a failing notification — is caught at the
top of the loop body: each cycle yields exactly one outcome (the loop
never exits), every outcome reaches the sleep, at most one best-effort
error report is attempted per cycle, and the failure of that report
itself is swallowed without affecting anything else. -/
theorem cycle_errors_contained (s : Store) (inps : List CycleInput) :
    (runCycles s inps).2.length = inps.length ∧
    (∀ o ∈ (runCycles s inps).2, o.slept = true ∧ o.errorReports ≤ 1) ∧
    (∀ (s' : Store) (inp : CycleInput) (b : Bool),
      (runCycle s' ⟨inp.fetch, inp.storeOk, inp.notifyOk, b⟩).store =
        (runCycle s' inp).store ∧
      (runCycle s' ⟨inp.fetch, inp.storeOk, inp.notifyOk, b⟩).sent =
        (runCycle s' inp).sent ∧
      (runCycle s' ⟨inp.fetch, inp.storeOk, inp.notifyOk, b⟩).slept =
        (runCycle s' inp).slept) := by
  refine ⟨?_, ?_, ?_⟩
  · induction inps generalizing s with
    | nil => rfl
    | cons inp rest ih =>
      rw [runCycles_cons]
      simpa using ih (runCycle s inp).store
  · induction inps generalizing s with
    | nil => intro o h; simp [runCycles] at h
    | cons inp rest ih =>
      intro o h
      rw [runCycles_cons] at h
      rcases List.mem_cons.mp h with h | h
      · exact h ▸ runCycle_contained s inp
      · exact ih (runCycle s inp).store o h
  · intro s' inp b
    obtain ⟨h1, h2, _, h4, _, h6⟩ := runCycle_errReport_swallowed s' inp b
    exact ⟨h1, h4, h6⟩

/-! ### C3 and C7: delivery ordering -/

/-- Inserting a row keeps its own key class in front: the rows skipped by
`orderedInsert` have strictly smaller keys. -/
theorem filter_orderedInsert_self (a : Row) (k : Int) (ha : tsKey a = k) :
    ∀ l : List Row,
      (List.orderedInsert (fun x y : Row => tsKey x ≤ tsKey y) a l).filter
          (fun r => decide (tsKey r = k)) =
        a :: l.filter (fun r => decide (tsKey r = k)) := by
  intro l
  induction l with
  | nil => simp [List.orderedInsert, ha]
  | cons b l ih =>
    by_cases h : tsKey a ≤ tsKey b
    · have heq : List.orderedInsert (fun x y : Row => tsKey x ≤ tsKey y) a (b :: l) =
          a :: b :: l := by
        simp only [List.orderedInsert, if_pos h]
      rw [heq]
      simp [List.filter_cons, ha]
    · have heq : List.orderedInsert (fun x y : Row => tsKey x ≤ tsKey y) a (b :: l) =
          b :: List.orderedInsert (fun x y : Row => tsKey x ≤ tsKey y) a l := by
        simp only [List.orderedInsert, if_neg h]
      have hbk : ¬tsKey b = k := fun hk => h (by rw [ha, hk])
      rw [heq]
      simp [List.filter_cons, hbk, ih]

/-- Inserting a row leaves every other key class untouched. -/
theorem filter_orderedInsert_ne (a : Row) (k : Int) (ha : ¬tsKey a = k) :
    ∀ l : List Row,
      (List.orderedInsert (fun x y : Row => tsKey x ≤ tsKey y) a l).filter
          (fun r => decide (tsKey r = k)) =
        l.filter (fun r => decide (tsKey r = k)) := by
  intro l
  induction l with
  | nil => simp [List.orderedInsert, ha]
  | cons b l ih =>
    by_cases h : tsKey a ≤ tsKey b
    · have heq : List.orderedInsert (fun x y : Row => tsKey x ≤ tsKey y) a (b :: l) =
          a :: b :: l := by
        simp only [List.orderedInsert, if_pos h]
      rw [heq]
      simp [List.filter_cons, ha]
    · have heq : List.orderedInsert (fun x y : Row => tsKey x ≤ tsKey y) a (b :: l) =
          b :: List.orderedInsert (fun x y : Row => tsKey x ≤ tsKey y) a l := by
        simp only [List.orderedInsert, if_neg h]
      rw [heq]
      simp [List.filter_cons, ih]

/-- Stability of `orderRows`: each key class comes out in fetch order. -/
theorem filter_orderRows (rows : List Row) (k : Int) :
    (orderRows rows).filter (fun r => decide (tsKey r = k)) =
      rows.filter (fun r => decide (tsKey r = k)) := by
  induction rows with
  | nil => rfl
  | cons a rows ih =>
    show (List.orderedInsert _ a (orderRows rows)).filter _ = _
    by_cases ha : tsKey a = k
    · rw [filter_orderedInsert_self a k ha, ih]
      simp [ha]
    · rw [filter_orderedInsert_ne a k ha, ih]
      simp [ha]

/-- A fabricated row with just an identity and a timestamp. -/
def mkRow (tx ts : Option Prim) : Row :=
  ⟨tx, ts, none, none, none, none, none, none, none, none, none, none, none, none, none,
    none, ""⟩

/-- Counterexample to C3 as stated: with one record at timestamp `-1` and
one with a missing timestamp, the missing-timestamp record is keyed `0`,
not the lowest possible value, so it is delivered second, not first. -/
theorem missing_ts_not_lowest :
    (mkRow (some (Prim.pstr "b")) none).timestamp = none ∧
    orderRows [mkRow (some (Prim.pstr "a")) (some (Prim.pint (-1))),
        mkRow (some (Prim.pstr "b")) none] =
      [mkRow (some (Prim.pstr "a")) (some (Prim.pint (-1))),
        mkRow (some (Prim.pstr "b")) none] ∧
    (orderRows [mkRow (some (Prim.pstr "a")) (some (Prim.pint (-1))),
        mkRow (some (Prim.pstr "b")) none]).head? ≠
      some (mkRow (some (Prim.pstr "b")) none) := by
  refine ⟨rfl, by decide, by decide⟩

/-- Claim C3 (corrected).  The delivery order is the stable sort of the
batch by the key `x.get("timestamp") or 0`, ascending: the output is a
permutation of the batch, non-decreasing in the key, with each key class
kept in fetch order; a record with a missing timestamp is treated as
timestamp `0` rather than raising an error — hence delivered first among
positive timestamps, but after any negative ones. -/
theorem delivery_order_stable_sorted (rows : List Row) :
    List.Perm (orderRows rows) rows ∧
    List.Sorted (fun a b : Row => tsKey a ≤ tsKey b) (orderRows rows) ∧
    (∀ k : Int, (orderRows rows).filter (fun r => decide (tsKey r = k)) =
      rows.filter (fun r => decide (tsKey r = k))) ∧
    (∀ r : Row, r.timestamp = none → tsKey r = 0) := by
  refine ⟨List.perm_insertionSort _ rows, List.sorted_insertionSort _ rows,
    fun k => filter_orderRows rows k, fun r h => by simp [tsKey, h]⟩

/-- Counterexample to C7 as stated: two rows sharing a timestamp form the
same multiset in either order, but the stable sort returns them in their
input order, so the output sequences differ. -/
theorem same_multiset_different_output :
    List.Perm [mkRow (some (Prim.pstr "a")) (some (Prim.pint 1)),
        mkRow (some (Prim.pstr "b")) (some (Prim.pint 1))]
      [mkRow (some (Prim.pstr "b")) (some (Prim.pint 1)),
        mkRow (some (Prim.pstr "a")) (some (Prim.pint 1))] ∧
    orderRows [mkRow (some (Prim.pstr "a")) (some (Prim.pint 1)),
        mkRow (some (Prim.pstr "b")) (some (Prim.pint 1))] ≠
      orderRows [mkRow (some (Prim.pstr "b")) (some (Prim.pint 1)),
        mkRow (some (Prim.pstr "a")) (some (Prim.pint 1))] := by
  refine ⟨List.Perm.swap _ _ _, by decide⟩

/-- Two sorted lists that are permutations of each other and whose keys
are pairwise distinct coincide. -/
theorem sorted_perm_nodup_keys_eq :
    ∀ (l₁ l₂ : List Row), List.Sorted (fun a b : Row => tsKey a ≤ tsKey b) l₁ →
      List.Sorted (fun a b : Row => tsKey a ≤ tsKey b) l₂ →
      List.Perm l₁ l₂ → (l₁.map tsKey).Nodup → l₁ = l₂ := by
  intro l₁
  induction l₁ with
  | nil =>
    intro l₂ _ _ hp _
    exact (List.Perm.nil_eq hp).symm ▸ rfl
  | cons a t ih =>
    intro l₂ hs₁ hs₂ hp hnd
    rcases l₂ with _ | ⟨b, t₂⟩
    · exact absurd hp.symm (by simp)
    · have hab : a = b := by
        by_contra hne
        have ha2 : a ∈ t₂ := by
          have := hp.subset (List.mem_cons_self a t)
          rcases List.mem_cons.mp this with h | h
          · exact absurd h hne
          · exact h
        have hb1 : b ∈ t := by
          have := hp.symm.subset (List.mem_cons_self b t₂)
          rcases List.mem_cons.mp this with h | h
          · exact absurd h.symm hne
          · exact h
        have h1 : tsKey a ≤ tsKey b := List.rel_of_sorted_cons hs₁ b hb1
        have h2 : tsKey b ≤ tsKey a := List.rel_of_sorted_cons hs₂ a ha2
        have hk : tsKey a = tsKey b := le_antisymm h1 h2
        have : tsKey a ∈ t.map tsKey := hk ▸ List.mem_map_of_mem tsKey hb1
        exact (List.nodup_cons.mp (by simpa using hnd)).1 this
      subst hab
      have hp' : List.Perm t t₂ := hp.cons_inv
      have : t = t₂ := ih t₂ hs₁.of_cons hs₂.of_cons hp'
        (List.nodup_cons.mp (by simpa using hnd)).2
      rw [this]

/-- Claim C7 (corrected).  The orderer is a pure function (it is a
function of the batch alone), and batches with the same multiset of rows
produce the same multiset of deliveries; but the stable sort makes the
output sequence depend on the input order of rows with equal timestamps,
so multiset-determinism of the sequence holds exactly when the rows'
timestamp keys are pairwise distinct. -/
theorem orderer_multiset_determinism (xs ys : List Row) (hp : List.Perm xs ys) :
    List.Perm (orderRows xs) (orderRows ys) ∧
    ((xs.map tsKey).Nodup → orderRows xs = orderRows ys) := by
  constructor
  · exact ((List.perm_insertionSort _ xs).trans hp).trans
      (List.perm_insertionSort _ ys).symm
  · intro hnd
    apply sorted_perm_nodup_keys_eq
    · exact List.sorted_insertionSort _ xs
    · exact List.sorted_insertionSort _ ys
    · exact ((List.perm_insertionSort _ xs).trans hp).trans
        (List.perm_insertionSort _ ys).symm
    · exact ((List.perm_insertionSort _ xs).map tsKey).nodup_iff.mpr hnd

/-- Witness for C7 at two permuted batches with distinct timestamps. -/
theorem orderer_multiset_determinism_witness :
    List.Perm [mkRow (some (Prim.pstr "a")) (some (Prim.pint 2)),
        mkRow (some (Prim.pstr "b")) (some (Prim.pint 1))]
      [mkRow (some (Prim.pstr "b")) (some (Prim.pint 1)),
        mkRow (some (Prim.pstr "a")) (some (Prim.pint 2))] ∧
    orderRows [mkRow (some (Prim.pstr "a")) (some (Prim.pint 2)),
        mkRow (some (Prim.pstr "b")) (some (Prim.pint 1))] =
      orderRows [mkRow (some (Prim.pstr "b")) (some (Prim.pint 1)),
        mkRow (some (Prim.pstr "a")) (some (Prim.pint 2))] :=
  ⟨List.Perm.swap _ _ _,
    (orderer_multiset_determinism _ _ (List.Perm.swap _ _ _)).2 (by decide)⟩

/-! ### C1: a failed notification and the rest of the batch -/

/-- A notifier that fails exactly on the row with identity `"a"`. -/
def failOnA : Row → Bool := fun r => decide (¬r.transactionHash = some (Prim.pstr "a"))

/-- The C1 scenario: the feed returns two new events in descending order,
the notifier fails on the chronologically first one. -/
def cinC1 : CycleInput := ⟨Except.ok [itemB1, itemA1], okAll, failOnA, true⟩

/-- Counterexample to C1 as stated: with two newly recorded events where
notifying the first (by delivery order) fails, the second event's
notification is NOT attempted — the exception aborts the delivery loop —
although both events do remain recorded. -/
theorem notify_failure_blocks_rest :
    (runCycle [] cinC1).newRows = [normalize_item itemB1, normalize_item itemA1] ∧
    (runCycle [] cinC1).ordered = [normalize_item itemA1, normalize_item itemB1] ∧
    failOnA (normalize_item itemA1) = false ∧
    (runCycle [] cinC1).store = [normalize_item itemB1, normalize_item itemA1] ∧
    ¬normalize_item itemB1 ∈ (runCycle [] cinC1).attempted := by
  refine ⟨by decide, by decide, by decide, by decide, by decide⟩

/-- Claim C1 (corrected).  When notifying the first event of the ordered
batch fails, all recorded events of the batch do remain recorded (the
transaction was already committed; nothing is re-inserted), but the
failure aborts the delivery loop: no further notification is attempted in
that cycle, exactly one best-effort error report is attempted instead,
and the cycle proceeds to the sleep.  (Being recorded, the skipped events
are also never notified in later cycles.) -/
theorem notify_failure_aborts_batch (s : Store) (inp : CycleInput) (items : List RawItem)
    (s' : Store) (nr : List Row) (r₁ : Row) (rest : List Row)
    (hf : inp.fetch = Except.ok items)
    (hrec : recordLoop inp.storeOk s [] items = Except.ok (s', nr))
    (hord : orderRows nr = r₁ :: rest)
    (hfail : inp.notifyOk r₁ = false) :
    (runCycle s inp).store = s ++ nr ∧
    (runCycle s inp).attempted = [r₁] ∧
    (runCycle s inp).sent = [] ∧
    (runCycle s inp).errorReports = 1 ∧
    (runCycle s inp).slept = true := by
  obtain ⟨d, hd1, hd2⟩ := recordLoop_store_eq inp.storeOk items s [] s' nr hrec
  have hs' : s' = s ++ nr := by
    rw [hd1, hd2]
    simp
  have hdel : deliver inp.notifyOk (orderRows nr) = ([r₁], [], true) := by
    rw [hord]
    simp [deliver, hfail]
  simp [runCycle, hf, hrec, hdel, hs']

/-- Witness for C1's amended statement at the concrete C1 scenario. -/
theorem notify_failure_aborts_batch_witness :
    (runCycle [] cinC1).store = [] ++ [normalize_item itemB1, normalize_item itemA1] ∧
    (runCycle [] cinC1).attempted = [normalize_item itemA1] ∧
    (runCycle [] cinC1).sent = [] ∧
    (runCycle [] cinC1).errorReports = 1 ∧
    (runCycle [] cinC1).slept = true :=
  notify_failure_aborts_batch [] cinC1 [itemB1, itemA1]
    [normalize_item itemB1, normalize_item itemA1]
    [normalize_item itemB1, normalize_item itemA1]
    (normalize_item itemA1) [normalize_item itemB1] rfl rfl (by decide) (by decide)

/-! ### C6: at most one notification per identity, ever -/

/-- The delivery loop attempts a prefix of its input. -/
theorem deliver_attempted_sublist (ok : Row → Bool) :
    ∀ l : List Row, List.Sublist (deliver ok l).1 l := by
  intro l
  induction l with
  | nil => simp [deliver]
  | cons r rest ih =>
    by_cases h : ok r
    · simpa [deliver, h] using List.Sublist.cons₂ r ih
    · simp [deliver, h]

/-- The successfully sent rows are among the attempted ones. -/
theorem deliver_sent_sublist (ok : Row → Bool) :
    ∀ l : List Row, List.Sublist (deliver ok l).2.1 (deliver ok l).1 := by
  intro l
  induction l with
  | nil => simp [deliver]
  | cons r rest ih =>
    by_cases h : ok r
    · simpa [deliver, h] using List.Sublist.cons₂ r ih
    · simp [deliver, h]

/-- A cycle commits exactly its newly recorded rows. -/
theorem runCycle_store_eq (s : Store) (inp : CycleInput) :
    (runCycle s inp).store = s ++ (runCycle s inp).newRows := by
  rcases hf : inp.fetch with e | items
  · simp [runCycle, hf]
  · rcases hrec : recordLoop inp.storeOk s [] items with e | ⟨s', newRows⟩
    · simp [runCycle, hf, hrec]
    · obtain ⟨d, hd1, hd2⟩ := recordLoop_store_eq inp.storeOk items s [] s' newRows hrec
      have hs' : s' = s ++ newRows := by
        rw [hd1, hd2]
        simp
      rcases hdel : deliver inp.notifyOk (orderRows newRows) with ⟨att, sent, raised⟩
      cases raised <;> simp [runCycle, hf, hrec, hdel, hs']

/-- A cycle's delivery lists against its newly recorded rows. -/
theorem runCycle_delivery_shape (s : Store) (inp : CycleInput) :
    List.Sublist (runCycle s inp).sent (runCycle s inp).attempted ∧
    List.Sublist (runCycle s inp).attempted (runCycle s inp).ordered ∧
    List.Perm (runCycle s inp).ordered (runCycle s inp).newRows := by
  rcases hf : inp.fetch with e | items
  · simp [runCycle, hf]
  · rcases hrec : recordLoop inp.storeOk s [] items with e | ⟨s', newRows⟩
    · simp [runCycle, hf, hrec]
    · rcases hdel : deliver inp.notifyOk (orderRows newRows) with ⟨att, sent, raised⟩
      have h1 : List.Sublist sent att := by
        have := deliver_sent_sublist inp.notifyOk (orderRows newRows)
        rwa [hdel] at this
      have h2 : List.Sublist att (orderRows newRows) := by
        have := deliver_attempted_sublist inp.notifyOk (orderRows newRows)
        rwa [hdel] at this
      cases raised <;> simp [runCycle, hf, hrec, hdel, h1, h2] <;>
        exact List.perm_insertionSort _ newRows

/-- The record loop never brings the multiplicity of an identity above
one. -/
theorem recordLoop_cnt (ok : Row → Bool) (v : Option Prim) :
    ∀ (items : List RawItem) (s : Store) (acc s' : List Row) (nr : List Row),
      recordLoop ok s acc items = Except.ok (s', nr) →
      cntTx s v ≤ 1 → cntTx s' v ≤ 1 := by
  intro items
  induction items with
  | nil =>
    intro s acc s' nr h hle
    simp [recordLoop] at h
    exact h.1 ▸ hle
  | cons x xs ih =>
    intro s acc s' nr h hle
    simp only [recordLoop] at h
    by_cases h1 : truthy (normalize_item x).transactionHash
    · simp only [h1, if_true] at h
      by_cases h2 : ok (normalize_item x)
      · simp only [h2, if_true] at h
        rcases h3 : recordIfNew s (normalize_item x) with ⟨s1, b⟩
        rw [h3] at h
        have hcnt : cntTx s1 v ≤ 1 := by
          by_cases h4 : hasTx s (normalize_item x).transactionHash
          · have : s1 = s := by simp [recordIfNew, h4] at h3; exact h3.1.symm
            exact this ▸ hle
          · have hs1 : s1 = s ++ [normalize_item x] := by
              simp [recordIfNew, h4] at h3
              exact h3.1.symm
            rw [hs1, cntTx_append]
            by_cases h5 : (normalize_item x).transactionHash = v
            · have h0 : cntTx s v = 0 := by
                rw [cntTx_eq_zero_iff]
                rw [← h5]
                simpa using h4
              have hone : cntTx [normalize_item x] v = 1 := by simp [cntTx, h5]
              omega
            · have : cntTx [normalize_item x] v = 0 := by simp [cntTx, h5]
              omega
        cases b with
        | true => exact ih s1 (acc ++ [normalize_item x]) s' nr h hcnt
        | false => exact ih s1 acc s' nr h hcnt
      · simp [h2] at h
    · simp only [h1, if_false] at h
      exact ih s acc s' nr h hle

/-- One cycle preserves the at-most-one-record-per-identity invariant. -/
theorem runCycle_cnt (s : Store) (inp : CycleInput) (v : Option Prim)
    (hle : cntTx s v ≤ 1) : cntTx (runCycle s inp).store v ≤ 1 := by
  rcases hf : inp.fetch with e | items
  · simpa [runCycle, hf] using hle
  · rcases hrec : recordLoop inp.storeOk s [] items with e | ⟨s', newRows⟩
    · simpa [runCycle, hf, hrec] using hle
    · have h1 : cntTx s' v ≤ 1 := recordLoop_cnt inp.storeOk v items s [] s' newRows hrec hle
      rcases hdel : deliver inp.notifyOk (orderRows newRows) with ⟨att, sent, raised⟩
      cases raised <;> simpa [runCycle, hf, hrec, hdel] using h1

/-- The final store is the initial store extended by every cycle's newly
recorded rows, in order. -/
theorem runCycles_store_eq (inps : List CycleInput) :
    ∀ s : Store, (runCycles s inps).1 =
      s ++ ((runCycles s inps).2.map (fun o => o.newRows)).flatten := by
  induction inps with
  | nil => intro s; simp [runCycles]
  | cons inp rest ih =>
    intro s
    rw [runCycles_cons]
    simp only [List.map_cons, List.flatten_cons]
    rw [ih (runCycle s inp).store, runCycle_store_eq s inp]
    simp [List.append_assoc]

/-- The store invariant holds after any run from the empty store. -/
theorem runCycles_cnt (inps : List CycleInput) (v : Option Prim) :
    ∀ s : Store, cntTx s v ≤ 1 → cntTx (runCycles s inps).1 v ≤ 1 := by
  induction inps with
  | nil => intro s h; simpa [runCycles] using h
  | cons inp rest ih =>
    intro s h
    rw [runCycles_cons]
    exact ih (runCycle s inp).store (runCycle_cnt s inp v h)

/-- Every outcome of a run has the per-cycle delivery shape. -/
theorem runCycles_delivery_shape (l : List CycleInput) :
    ∀ s : Store, ∀ o ∈ (runCycles s l).2,
      List.Sublist o.sent o.attempted ∧
      List.Sublist o.attempted o.ordered ∧
      List.Perm o.ordered o.newRows := by
  induction l with
  | nil => intro s o h; simp [runCycles] at h
  | cons inp rest ih =>
    intro s o h
    rw [runCycles_cons] at h
    rcases List.mem_cons.mp h with h | h
    · exact h ▸ runCycle_delivery_shape s inp
    · exact ih (runCycle s inp).store o h

/-- Claim C6 (confirmed).  Starting from an empty store: in every cycle the
rows whose notification is attempted are among that same cycle's newly
recorded rows (never delivered before recorded, and only when the insert
reported `inserted = true` in that cycle); the store never holds two rows
with the same `transactionHash` (repeated fetches collapse to one stored
record); and across the entire run, for any identity, at most one
notification is ever attempted — hence at most one is ever sent. -/
theorem at_most_one_notification (inps : List CycleInput) (v : Option Prim) :
    (∀ o ∈ (runCycles [] inps).2,
      List.Sublist o.sent o.attempted ∧
      List.Sublist o.attempted o.ordered ∧
      List.Perm o.ordered o.newRows) ∧
    cntTx (runCycles [] inps).1 v ≤ 1 ∧
    cntTx (((runCycles [] inps).2.map (fun o => o.attempted)).flatten) v ≤ 1 := by
  refine ⟨runCycles_delivery_shape inps [], runCycles_cnt inps v [] (by simp [cntTx]), ?_⟩
  have hpoint : ∀ o ∈ (runCycles [] inps).2,
      cntTx o.attempted v ≤ cntTx o.newRows v := by
    intro o ho
    obtain ⟨_, h2, h3⟩ := runCycles_delivery_shape inps [] o ho
    exact le_trans (List.Sublist.countP_le _ h2) (le_of_eq (h3.countP_eq _))
  have hsum : cntTx (((runCycles [] inps).2.map (fun o => o.attempted)).flatten) v ≤
      cntTx (((runCycles [] inps).2.map (fun o => o.newRows)).flatten) v := by
    unfold cntTx
    rw [List.countP_flatten, List.countP_flatten, List.map_map, List.map_map]
    exact List.sum_le_sum fun o ho => hpoint o ho
  have hstore : cntTx (((runCycles [] inps).2.map (fun o => o.newRows)).flatten) v ≤ 1 := by
    have := runCycles_cnt inps v [] (by simp [cntTx])
    rwa [runCycles_store_eq inps [], List.nil_append] at this
  exact le_trans hsum hstore

/-! ### C8: message construction -/

/-- Counterexample to C8 as stated: on a row with every optional field
absent, the title, size and price lines are omitted, but the type/side
line is NOT omitted — it is rendered as `None / None`. -/
theorem type_side_line_not_omitted :
    (normalize_item []).type = none ∧
    (normalize_item []).side = none ∧
    format_message (normalize_item []) =
      "🆕 Polymarket activity\n🔁 None / None\n🧾 tx=None" := by
  refine ⟨rfl, rfl, by decide⟩

/-- Claim C8 (corrected).  Message construction is a pure total function
of the row's fields.  When the optional `title`, `price`, `size` and
`usdcSize` are absent their lines are omitted without erroring, but the
type/side line (like the tx line) is always present, rendering absent
fields as `None` rather than omitting the line. -/
theorem format_message_absent_fields (r : Row)
    (ht : r.title = none) (hp : r.price = none)
    (hs : r.size = none) (hu : r.usdcSize = none) :
    format_message r = String.intercalate "\n"
      ["🆕 Polymarket activity",
        "🔁 " ++ pyFStr r.type ++ " / " ++ pyFStr r.side,
        "🧾 tx=" ++ pyFStr r.transactionHash] := by
  simp [format_message, titleStr, ht, hp, hs, hu]

/-- Witness for C8 at a concrete row with only identity, type and side. -/
theorem format_message_absent_fields_witness :
    format_message (normalize_item [("transactionHash", Prim.pstr "a"),
        ("type", Prim.pstr "TRADE"), ("side", Prim.pstr "BUY")]) =
      String.intercalate "\n"
        ["🆕 Polymarket activity",
          "🔁 " ++ pyFStr (normalize_item [("transactionHash", Prim.pstr "a"),
            ("type", Prim.pstr "TRADE"), ("side", Prim.pstr "BUY")]).type ++ " / " ++
            pyFStr (normalize_item [("transactionHash", Prim.pstr "a"),
              ("type", Prim.pstr "TRADE"), ("side", Prim.pstr "BUY")]).side,
          "🧾 tx=" ++ pyFStr (normalize_item [("transactionHash", Prim.pstr "a"),
            ("type", Prim.pstr "TRADE"), ("side", Prim.pstr "BUY")]).transactionHash] :=
  format_message_absent_fields (normalize_item [("transactionHash", Prim.pstr "a"),
    ("type", Prim.pstr "TRADE"), ("side", Prim.pstr "BUY")]) rfl rfl rfl rfl

/-! ### C9: round-trip of the provenance payload -/

/-- Does the input not start with a digit (so a digit run ends here)? -/
def headNotDigit : List Char → Bool
  | [] => true
  | c :: _ => !isDigitChar c

theorem natDigitChar_isDigit (d : Nat) (h : d < 10) :
    isDigitChar (natDigitChar d) = true := by
  interval_cases d <;> decide

theorem natDigitChar_val (d : Nat) (h : d < 10) :
    (natDigitChar d).toNat - 48 = d := by
  interval_cases d <;> decide

theorem natDigitsFuel_lt (fuel : Nat) :
    ∀ n, ∀ d ∈ natDigitsFuel fuel n, d < 10 := by
  induction fuel with
  | zero => intro n d h; simp [natDigitsFuel] at h
  | succ fuel ih =>
    intro n d h
    by_cases hn : n = 0
    · simp [natDigitsFuel, hn] at h
    · simp only [natDigitsFuel, hn, if_false] at h
      rcases List.mem_cons.mp h with h | h
      · omega
      · exact ih (n / 10) d h

theorem ofDigits_natDigitsFuel (fuel : Nat) :
    ∀ n, n ≤ fuel → Nat.ofDigits 10 (natDigitsFuel fuel n) = n := by
  induction fuel with
  | zero =>
    intro n h
    have : n = 0 := Nat.le_zero.mp h
    simp [natDigitsFuel, this, Nat.ofDigits]
  | succ fuel ih =>
    intro n h
    by_cases hn : n = 0
    · simp [natDigitsFuel, hn, Nat.ofDigits]
    · simp only [natDigitsFuel, hn, if_false]
      rw [Nat.ofDigits_cons]
      have hdiv : n / 10 ≤ fuel := by omega
      rw [ih (n / 10) hdiv]
      omega

theorem takeDigits_digits_append (ds rest : List Char)
    (hds : ∀ c ∈ ds, isDigitChar c = true) (hrest : headNotDigit rest = true) :
    takeDigits (ds ++ rest) = (ds.map (fun c => c.toNat - 48), rest) := by
  induction ds with
  | nil =>
    rcases rest with _ | ⟨c, cs⟩
    · simp [takeDigits]
    · have : isDigitChar c = false := by simpa [headNotDigit] using hrest
      simp [takeDigits, this]
  | cons c cs ih =>
    have hc : isDigitChar c = true := hds c (List.mem_cons_self c cs)
    have ih' := ih fun d hd => hds d (List.mem_cons_of_mem c hd)
    simp [takeDigits, hc, ih']

theorem natLit_digits (n : Nat) : ∀ c ∈ natLit n, isDigitChar c = true := by
  intro c hc
  by_cases hn : n = 0
  · simp [natLit, hn] at hc
    rw [hc]
    exact natDigitChar_isDigit 0 (by omega)
  · simp only [natLit, hn, if_false, natChars] at hc
    rw [List.mem_reverse] at hc
    obtain ⟨d, hd, rfl⟩ := List.mem_map.mp hc
    exact natDigitChar_isDigit d (natDigitsFuel_lt n n d hd)

theorem natLit_ne_nil (n : Nat) : natLit n ≠ [] := by
  by_cases hn : n = 0
  · subst hn
    decide
  · simp only [natLit, hn, if_false, natChars]
    intro hcon
    rw [List.reverse_eq_nil_iff, List.map_eq_nil_iff] at hcon
    have h2 : Nat.ofDigits 10 (natDigitsFuel n n) = n := ofDigits_natDigitsFuel n n (le_refl n)
    rw [hcon, Nat.ofDigits_nil] at h2
    omega

theorem parseNat_natLit (n : Nat) (rest : List Char) (hrest : headNotDigit rest = true) :
    parseNat (natLit n ++ rest) = some (n, rest) := by
  have htd := takeDigits_digits_append (natLit n) rest (natLit_digits n) hrest
  by_cases hn : n = 0
  · subst hn
    have h0 : (natLit 0).map (fun c => c.toNat - 48) = [0] := by decide
    rw [h0] at htd
    unfold parseNat
    rw [htd]
    simp [Nat.ofDigits_cons, Nat.ofDigits_nil]
  · have hval : (natLit n).map (fun c => c.toNat - 48) = (natDigitsFuel n n).reverse := by
      simp only [natLit, hn, if_false, natChars]
      rw [List.map_reverse, List.map_map]
      congr 1
      have hid : ∀ d ∈ natDigitsFuel n n,
          ((fun c => c.toNat - 48) ∘ natDigitChar) d = id d := by
        intro d hd
        simp only [Function.comp, id]
        exact natDigitChar_val d (natDigitsFuel_lt n n d hd)
      rw [List.map_congr_left hid, List.map_id]
    rw [hval] at htd
    unfold parseNat
    rw [htd]
    have hne : (natDigitsFuel n n).reverse ≠ [] := by
      intro hcon
      rw [List.reverse_eq_nil_iff] at hcon
      have h2 : Nat.ofDigits 10 (natDigitsFuel n n) = n := ofDigits_natDigitsFuel n n (le_refl n)
      rw [hcon, Nat.ofDigits_nil] at h2
      omega
    rcases hrev : (natDigitsFuel n n).reverse with _ | ⟨d, ds⟩
    · exact absurd hrev hne
    · show some (Nat.ofDigits 10 (d :: ds).reverse, rest) = some (n, rest)
      have hofd : Nat.ofDigits 10 (d :: ds).reverse = n := by
        rw [← hrev, List.reverse_reverse]
        exact ofDigits_natDigitsFuel n n (le_refl n)
      rw [hofd]

theorem parseInt_intLit (n : Int) (rest : List Char) (hrest : headNotDigit rest = true) :
    parseInt (intLit n ++ rest) = some (n, rest) := by
  by_cases hneg : n < 0
  · have hlit : intLit n = Char.ofNat 45 :: natLit n.natAbs := by
      simp [intLit, hneg]
    rw [hlit]
    have hred : parseInt (Char.ofNat 45 :: natLit n.natAbs ++ rest) =
        (parseNat (natLit n.natAbs ++ rest)).map fun p => (-(p.1 : Int), p.2) := rfl
    rw [hred, parseNat_natLit n.natAbs rest hrest]
    have hval : -((n.natAbs : Nat) : Int) = n := by omega
    show some (-((n.natAbs : Nat) : Int), rest) = some (n, rest)
    rw [hval]
  · have hlit : intLit n = natLit n.toNat := by
      simp [intLit, hneg]
    rw [hlit]
    rcases hl : natLit n.toNat with _ | ⟨c, cs⟩
    · exact absurd hl (natLit_ne_nil n.toNat)
    · have hcdig : isDigitChar c = true :=
        natLit_digits n.toNat c (hl ▸ List.mem_cons_self c cs)
      have hcne : ¬c = Char.ofNat 45 := by
        intro hcon
        rw [hcon] at hcdig
        exact absurd hcdig (by decide)
      rw [List.cons_append]
      have hstep : parseInt (c :: (cs ++ rest)) =
          (parseNat (c :: (cs ++ rest))).map fun p => ((p.1 : Int), p.2) := by
        simp [parseInt, hcne]
      rw [hstep]
      have hjoin : c :: (cs ++ rest) = natLit n.toNat ++ rest := by
        rw [hl]
        rfl
      rw [hjoin, parseNat_natLit n.toNat rest hrest]
      show some (((n.toNat : Nat) : Int), rest) = some (n, rest)
      rw [Int.toNat_of_nonneg (not_lt.mp hneg)]

theorem scanStr_quote (rest : List Char) : scanStr ('"' :: rest) = some ([], rest) := by
  rw [scanStr.eq_def]
  simp

theorem scanStr_escQuote (xs : List Char) :
    scanStr ('\\' :: '"' :: xs) = (scanStr xs).map fun p => ('"' :: p.1, p.2) := by
  rw [scanStr.eq_def]
  simp

theorem scanStr_escBackslash (xs : List Char) :
    scanStr ('\\' :: '\\' :: xs) = (scanStr xs).map fun p => ('\\' :: p.1, p.2) := by
  rw [scanStr.eq_def]
  simp

theorem scanStr_plain (c : Char) (xs : List Char) (h1 : ¬c = '"') (h2 : ¬c = '\\') :
    scanStr (c :: xs) = (scanStr xs).map fun p => (c :: p.1, p.2) := by
  rw [scanStr.eq_def]
  simp [h1, h2]

theorem scanStr_escChars (s : List Char) (rest : List Char) :
    scanStr (escChars s ++ '"' :: rest) = some (s, rest) := by
  induction s with
  | nil => exact scanStr_quote rest
  | cons c cs ih =>
    by_cases h1 : c = '"'
    · subst h1
      have hesc : escChars ('"' :: cs) = '\\' :: '"' :: escChars cs := by
        simp [escChars]
      rw [hesc, List.cons_append, List.cons_append, scanStr_escQuote, ih]
      rfl
    · by_cases h2 : c = '\\'
      · subst h2
        have hesc : escChars ('\\' :: cs) = '\\' :: '\\' :: escChars cs := by
          simp [escChars]
        rw [hesc, List.cons_append, List.cons_append, scanStr_escBackslash, ih]
        rfl
      · have hesc : escChars (c :: cs) = c :: escChars cs := by
          simp [escChars, h1, h2]
        rw [hesc, List.cons_append, scanStr_plain c _ h1 h2, ih]
        rfl

theorem parseStrLit_strLit (s : String) (rest : List Char) :
    parseStrLit (strLit s ++ rest) = some (s, rest) := by
  have hred : parseStrLit (strLit s ++ rest) =
      (scanStr ((escChars s.data ++ ['"']) ++ rest)).map fun p => (String.mk p.1, p.2) := rfl
  rw [hred]
  have hassoc : (escChars s.data ++ ['"']) ++ rest = escChars s.data ++ '"' :: rest := by
    simp
  rw [hassoc, scanStr_escChars]
  rfl

theorem parsePrim_primLit (v : Prim) (rest : List Char)
    (hrest : headNotDigit rest = true) :
    parsePrim (primLit v ++ rest) = some (v, rest) := by
  cases v with
  | null => rfl
  | pstr s =>
    have hred : parsePrim (primLit (Prim.pstr s) ++ rest) =
        (scanStr ((escChars s.data ++ ['"']) ++ rest)).map
          fun p => (Prim.pstr (String.mk p.1), p.2) := rfl
    rw [hred]
    have hassoc : (escChars s.data ++ ['"']) ++ rest = escChars s.data ++ '"' :: rest := by
      simp
    rw [hassoc, scanStr_escChars]
    rfl
  | pint n =>
    have hhead : ∃ c cs, intLit n = c :: cs ∧
        (c = Char.ofNat 45 ∨ isDigitChar c = true) := by
      by_cases hneg : n < 0
      · exact ⟨Char.ofNat 45, natLit n.natAbs, by simp [intLit, hneg], Or.inl rfl⟩
      · rcases hl : natLit n.toNat with _ | ⟨c, cs⟩
        · exact absurd hl (natLit_ne_nil n.toNat)
        · refine ⟨c, cs, by simp [intLit, hneg, hl], Or.inr ?_⟩
          exact natLit_digits n.toNat c (hl ▸ List.mem_cons_self c cs)
    obtain ⟨c, cs, hl, hc⟩ := hhead
    have hcn : ¬c = 'n' := by
      rcases hc with hc | hc
      · rw [hc]; decide
      · intro hcon
        rw [hcon] at hc
        exact absurd hc (by decide)
    have hcq : ¬c = '"' := by
      rcases hc with hc | hc
      · rw [hc]; decide
      · intro hcon
        rw [hcon] at hc
        exact absurd hc (by decide)
    show parsePrim (intLit n ++ rest) = some (Prim.pint n, rest)
    rw [hl, List.cons_append]
    have hstep : parsePrim (c :: (cs ++ rest)) =
        (parseInt (c :: (cs ++ rest))).map fun p => (Prim.pint p.1, p.2) := by
      simp [parsePrim, hcn, hcq]
    rw [hstep]
    have hjoin : c :: (cs ++ rest) = intLit n ++ rest := by
      rw [hl]
      rfl
    rw [hjoin, parseInt_intLit n rest hrest]
    rfl

theorem expect2_cons_ne (a b c : Char) (l : List Char) (h : ¬c = a) :
    expect2 a b (c :: l) = none := by
  cases l <;> simp [expect2, h]

theorem expect2_match (a b : Char) (l : List Char) :
    expect2 a b (a :: b :: l) = some l := by
  simp [expect2]

theorem parseEntries_entriesLit :
    ∀ item : RawItem, item ≠ [] → ∀ fuel : Nat, item.length ≤ fuel → ∀ r' : List Char,
      parseEntries fuel (entriesLit item ++ Char.ofNat 125 :: r') =
        some (item, Char.ofNat 125 :: r') := by
  intro item
  induction item with
  | nil => intro h; exact absurd rfl h
  | cons e t ih =>
    intro _ fuel hlen r'
    rcases fuel with _ | fuel
    · simp at hlen
    · rcases e with ⟨k, v⟩
      rcases t with _ | ⟨e₂, t₂⟩
      · have hsplit : entriesLit [(k, v)] ++ Char.ofNat 125 :: r' =
            strLit k ++ (':' :: ' ' :: (primLit v ++ Char.ofNat 125 :: r')) := by
          simp [entriesLit, entryLit]
        rw [hsplit, parseEntries.eq_def]
        simp only [parseStrLit_strLit, expect2_match,
          parsePrim_primLit v (Char.ofNat 125 :: r') rfl,
          expect2_cons_ne ',' ' ' (Char.ofNat 125) r' (by decide)]
      · have hsplit : entriesLit ((k, v) :: e₂ :: t₂) ++ Char.ofNat 125 :: r' =
            strLit k ++ (':' :: ' ' :: (primLit v ++
              (',' :: ' ' :: (entriesLit (e₂ :: t₂) ++ Char.ofNat 125 :: r')))) := by
          simp [entriesLit, entryLit]
        have hihlen : (e₂ :: t₂).length ≤ fuel := by
          simp only [List.length_cons] at hlen ⊢
          omega
        rw [hsplit, parseEntries.eq_def]
        simp only [parseStrLit_strLit, expect2_match,
          parsePrim_primLit v (',' :: ' ' :: (entriesLit (e₂ :: t₂) ++
            Char.ofNat 125 :: r')) rfl,
          ih (by simp) fuel hihlen r']
        rfl

theorem entriesLit_length (item : RawItem) : item.length ≤ (entriesLit item).length := by
  induction item with
  | nil => simp [entriesLit]
  | cons e t ih =>
    have hent : 1 ≤ (entryLit e).length := by
      rcases e with ⟨k, v⟩
      simp [entryLit, strLit]
    rcases t with _ | ⟨e₂, t₂⟩
    · simpa [entriesLit] using hent
    · have hsplit : entriesLit (e :: e₂ :: t₂) =
          entryLit e ++ ',' :: ' ' :: entriesLit (e₂ :: t₂) := by
        simp [entriesLit]
      rw [hsplit]
      simp only [List.length_append, List.length_cons] at ih ⊢
      omega

theorem entriesLit_cons_head (e : String × Prim) (t : List (String × Prim)) :
    ∃ cs0, entriesLit (e :: t) = '"' :: cs0 := by
  rcases e with ⟨k, v⟩
  rcases t with _ | ⟨e₂, t₂⟩
  · exact ⟨escChars k.data ++ ['"'] ++ (':' :: ' ' :: primLit v), by
      simp [entriesLit, entryLit, strLit]⟩
  · exact ⟨escChars k.data ++ ['"'] ++ (':' :: ' ' :: primLit v) ++
      ',' :: ' ' :: entriesLit (e₂ :: t₂), by simp [entriesLit, entryLit, strLit]⟩

theorem parseItem_dumps (item : RawItem) : parseItem (dumps item) = some item := by
  rcases item with _ | ⟨e, t⟩
  · rfl
  · obtain ⟨cs0, hc⟩ := entriesLit_cons_head e t
    have hne : ¬(entriesLit (e :: t) ++ [Char.ofNat 125] = [Char.ofNat 125]) := by
      rw [hc]
      intro hcon
      simp only [List.cons_append, List.cons.injEq] at hcon
      exact absurd hcon.1 (by decide)
    have hpe : parseEntries (entriesLit (e :: t) ++ [Char.ofNat 125]).length
        (entriesLit (e :: t) ++ [Char.ofNat 125]) =
        some (e :: t, [Char.ofNat 125]) := by
      have hlen : (e :: t).length ≤ (entriesLit (e :: t) ++ [Char.ofNat 125]).length := by
        have h1 := entriesLit_length (e :: t)
        simp only [List.length_append, List.length_cons, List.length_nil] at h1 ⊢
        omega
      exact parseEntries_entriesLit (e :: t) (by simp) _ hlen []
    show parseItem (String.mk (Char.ofNat 123 ::
      (entriesLit (e :: t) ++ [Char.ofNat 125]))) = some (e :: t)
    rw [parseItem.eq_def]
    simp only [String.data]
    rw [if_pos trivial, if_neg hne, hpe]
    simp

/-- Claim C9 (confirmed).  For a well-formed raw record (no control
characters in its keys or string values, the domain on which the modelled
serialization agrees with `json.dumps`), normalizing the record and then
deserializing the stored verbatim `raw_json` payload reproduces the
original record's fields exactly (structural equality of the key/value
list is byte-for-byte equality of the serialized fields). -/
theorem raw_json_roundtrip (item : RawItem) (_hwf : wfItem item) :
    parseItem ((normalize_item item).raw_json) = some item := by
  show parseItem (dumps item) = some item
  exact parseItem_dumps item

/-- Witness for C9 at a concrete raw record with null, negative-integer
and escaped-string values. -/
theorem raw_json_roundtrip_witness :
    parseItem ((normalize_item [("transactionHash", Prim.pstr "0x\"a\\b"),
      ("timestamp", Prim.pint (-7)), ("title", Prim.null)]).raw_json) =
      some [("transactionHash", Prim.pstr "0x\"a\\b"),
        ("timestamp", Prim.pint (-7)), ("title", Prim.null)] :=
  raw_json_roundtrip [("transactionHash", Prim.pstr "0x\"a\\b"),
    ("timestamp", Prim.pint (-7)), ("title", Prim.null)] (by decide)

end PolyBot
